import Mathlib

/- Shallow embedding of the numerical core of pinvgcn/hypergraphs.py:
   construction of the normalized hypergraph incidence matrix, the
   hypergraph Laplacian spectral decomposition, the orchestrating
   HypergraphPinv transform, and the UCIHypergraphDataset save path.
   Matrices are modelled as dimension pairs with total entry functions;
   the SVD backends (np.linalg.svd and scipy.sparse.linalg.svds) and the
   float32 rounding map are abstract parameters. Python exception
   behaviour is modelled with the Except monad. -/

namespace PinvGCN

/-- Numpy/torch dtype tag tracking the precision an array is stored in. -/
inductive DType where
  | float32
  | float64
deriving DecidableEq

/-- Python exceptions relevant to this module: the error classes named by
the specification plus generic backend and type errors. The source code
of hypergraphs.py itself contains no raise statement for any of the first
three; they can only ever be produced by an (abstract) backend. -/
inductive PyErr where
  | degenerateDegree
  | invalidHypergraph
  | convergence
  | typeError
  | backendFailure
deriving DecidableEq

/-- Dense matrix: row and column counts plus a total entry function
(entries outside the stated dimensions are junk and never used). -/
structure RMat (α : Type) where
  rows : ℕ
  cols : ℕ
  entry : ℕ → ℕ → α

/-- The fields of a torch_geometric Data object that are read by
normalized_incidence: the incidence matrix data.x and the optional
hyperedge weight vector. -/
structure HData (α : Type) where
  x : RMat α
  hyperedge_weight : Option (ℕ → α)

variable {α : Type} [LinearOrderedField α]

/-- Hyperedge weights used by normalized_incidence: data.hyperedge_weight
when the data object has that attribute, else np.ones(inc.shape[1]). -/
def hweights (data : HData α) : ℕ → α :=
  match data.hyperedge_weight with
  | some w => w
  | none => fun _ => 1

/-- Embedding of normalized_incidence (hypergraphs.py, lines 188-205):
d = inc @ weights; d = 1/np.sqrt(d); b = np.ones(inc.shape[0]) @ inc;
b = np.sqrt(weights / b); return d * inc * b. The square root is an
explicit parameter sq, instantiated with Real.sqrt over the reals. -/
def normalized_incidence (sq : α → α) (data : HData α) : RMat α :=
  let inc := data.x
  let w := hweights data
  let dInv : ℕ → α := fun v =>
    1 / sq (∑ e ∈ Finset.range inc.cols, inc.entry v e * w e)
  let bFac : ℕ → α := fun e =>
    sq (w e / ∑ v ∈ Finset.range inc.rows, 1 * inc.entry v e)
  ⟨inc.rows, inc.cols, fun v e => dInv v * inc.entry v e * bFac e⟩

/-- normalized_incidence viewed in the exception monad. The source body
performs no degree check and contains no raise statement, so the embedded
computation unconditionally returns ok of the computed matrix. -/
def normalizedIncidenceRun (sq : α → α) (data : HData α) :
    Except PyErr (RMat α) :=
  .ok (normalized_incidence sq data)

/-- Result triple of an SVD backend call: left singular vectors U,
singular values sigma, right singular vectors Vt (discarded by the
caller), together with the precision the backend produced them in. -/
structure SVDOut (α : Type) where
  U : RMat α
  sigma : List α
  Vt : RMat α
  dtype : DType

/-- Output of the Laplacian decomposition: eigenvalue list w and
eigenvector matrix U, each with the dtype it is stored in. -/
structure Spectrum (α : Type) where
  w : List α
  wDtype : DType
  U : RMat α
  uDtype : DType

/-- Numpy column slice U[:, :k]: keeps min k cols columns. -/
def RMat.takeCols (M : RMat α) (k : ℕ) : RMat α :=
  ⟨M.rows, min k M.cols, M.entry⟩

/-- Embedding of the final line of hypergraph_laplacian_decomposition:
return 1 - sigma.astype(np.float32)**2, U.astype(np.float32). The
float32 cast is the abstract rounding map f32; both returned arrays are
tagged float32. -/
def spectrumOf (f32 : α → α) (U : RMat α) (sigma : List α) : Spectrum α :=
  ⟨sigma.map fun s => 1 - f32 s ^ 2, DType.float32,
    ⟨U.rows, U.cols, fun i j => f32 (U.entry i j)⟩, DType.float32⟩

/-- The full-SVD branch of hypergraph_laplacian_decomposition:
U, sigma, _ = np.linalg.svd(inc, full_matrices=False), followed by
U = U[:,:num_ev]; sigma = sigma[:num_ev] when num_ev is not None. -/
def svdFull (f32 : α → α) (svd : RMat α → Except PyErr (SVDOut α))
    (inc : RMat α) (num_ev : Option ℕ) : Except PyErr (Spectrum α) :=
  match svd inc with
  | .error e => .error e
  | .ok out =>
    match num_ev with
    | none => .ok (spectrumOf f32 out.U out.sigma)
    | some k => .ok (spectrumOf f32 (out.U.takeCols k) (out.sigma.take k))

/-- Embedding of hypergraph_laplacian_decomposition (hypergraphs.py,
lines 207-221). The branch condition num_ev > inc.shape[1]/2 (python
true division) is rendered over the naturals as inc.cols < 2 * k. The
backends svd (np.linalg.svd, economy size) and svds
(scipy.sparse.linalg.svds, called with exactly num_ev triplets and the
given tolerance) are abstract parameters that may themselves fail. -/
def hypergraph_laplacian_decomposition (f32 : α → α)
    (svd : RMat α → Except PyErr (SVDOut α))
    (svds : RMat α → ℕ → α → Except PyErr (SVDOut α))
    (inc : RMat α) (num_ev : Option ℕ) (tol : α) :
    Except PyErr (Spectrum α) :=
  match num_ev with
  | none => svdFull f32 svd inc none
  | some k =>
    if inc.cols < 2 * k then
      svdFull f32 svd inc (some k)
    else
      match svds inc k tol with
      | .error e => .error e
      | .ok out => .ok (spectrumOf f32 out.U out.sigma)

/-- Embedding of HypergraphPinv.__call__ (hypergraphs.py, lines 52-59):
inc = normalized_incidence(data); w, U = hypergraph_laplacian_decomposition
(inc, num_ev=None if self.rank is None else self.rank+1, tol=self.eig_tol);
setup_spectral_data(data, w, U, threshold=self.eig_threshold,
max_rank=self.rank); return data. setup_spectral_data lives in
pinvgcn/data.py, outside this module, and is an abstract parameter
returning the updated data object. -/
def HypergraphPinv.call (sq f32 : α → α)
    (svd : RMat α → Except PyErr (SVDOut α))
    (svds : RMat α → ℕ → α → Except PyErr (SVDOut α))
    (setup : HData α → List α → RMat α → α → Option ℕ → HData α)
    (rank : Option ℕ) (eig_tol eig_threshold : α) (data : HData α) :
    Except PyErr (HData α) :=
  let inc := normalized_incidence sq data
  match hypergraph_laplacian_decomposition f32 svd svds inc
      (match rank with | none => none | some k => some (k + 1)) eig_tol with
  | .error e => .error e
  | .ok spec => .ok (setup data spec.w spec.U eig_threshold rank)

/-- The fields of the torch_geometric Data object built by
UCIHypergraphDataset.save_processed: x = torch.FloatTensor(incidence),
y = torch.LongTensor(labels), hyperedge_weight = torch.ones(cols). -/
structure TorchData (α : Type) where
  x : RMat α
  y : List ℤ
  hyperedge_weight : List α

/-- Embedding of UCIHypergraphDataset.save_processed (hypergraphs.py,
lines 72-80). The FloatTensor cast applies the float32 rounding map f32.
The source then runs: if self.pre_transform is None: data =
self.pre_transform(data), i.e. it calls self.pre_transform exactly when
it is None, which is a call of None and raises TypeError; when a
pre_transform is supplied, the branch is skipped and the transform is
never applied. On success the returned payload is collate([data]), the
value handed to torch.save; an error means nothing was saved. -/
def UCIHypergraphDataset.save_processed (f32 : α → α)
    (pre_transform : Option (TorchData α → TorchData α))
    (incidence : RMat α) (labels : List ℤ) :
    Except PyErr (List (TorchData α)) :=
  let data : TorchData α :=
    ⟨⟨incidence.rows, incidence.cols, fun i j => f32 (incidence.entry i j)⟩,
      labels, List.replicate incidence.cols 1⟩
  match pre_transform with
  | none => .error .typeError
  | some _ => .ok [data]

/-- Concrete degenerate hypergraph used to exhibit the missing degree
check: node 1 lies in no hyperedge (zero row) and hyperedge 1 contains no
node (zero column). -/
def zeroRowData (α : Type) [LinearOrderedField α] : HData α :=
  ⟨⟨2, 2, fun v e => if v = 0 ∧ e = 0 then 1 else 0⟩, none⟩

/-- C1: for every hypergraph data object, normalized_incidence returns a
matrix of the same shape whose entry at (v,e) is
(1/sqrt(sum over g of H[v,g]*w[g])) * H[v,e] * sqrt(w[e]/sum over u of H[u,e]),
with the hyperedge weights defaulting to all-ones when absent. -/
theorem normalized_incidence_entry_formula (data : HData ℝ) :
    (normalized_incidence Real.sqrt data).rows = data.x.rows
    ∧ (normalized_incidence Real.sqrt data).cols = data.x.cols
    ∧ (∀ v e, (normalized_incidence Real.sqrt data).entry v e
        = (1 / Real.sqrt (∑ g ∈ Finset.range data.x.cols,
              data.x.entry v g * hweights data g))
          * data.x.entry v e
          * Real.sqrt (hweights data e
              / ∑ u ∈ Finset.range data.x.rows, data.x.entry u e))
    ∧ (∀ (M : RMat ℝ) (e : ℕ), hweights (HData.mk M none) e = 1) := by
  refine ⟨rfl, rfl, fun v e => ?_, fun M e => rfl⟩
  simp only [normalized_incidence, one_mul]

/-- C2 counterexample: on a hypergraph with a zero-degree node (row 1 of
all zeros) and a zero-degree hyperedge (column 1 of all zeros),
normalized_incidence does not raise DegenerateDegreeError; it returns
normally. -/
theorem normalize_ignores_degenerate_degrees :
    (∑ e ∈ Finset.range 2,
        (zeroRowData ℝ).x.entry 1 e * hweights (zeroRowData ℝ) e) = 0
    ∧ (∑ v ∈ Finset.range 2, (zeroRowData ℝ).x.entry v 1) = 0
    ∧ normalizedIncidenceRun Real.sqrt (zeroRowData ℝ)
        ≠ Except.error PyErr.degenerateDegree := by
  refine ⟨?_, ?_, fun h => Except.noConfusion h⟩
  · simp [zeroRowData, hweights, Finset.sum_range_succ]
  · simp [zeroRowData, Finset.sum_range_succ]

/-- C2 amended: normalized_incidence performs no zero-degree check and
never raises any error; for every input, including hypergraphs with a
zero-degree node or hyperedge, it returns ok of the matrix whose entries
are computed from the degree reciprocals as they stand (a division by
zero under IEEE arithmetic at the degenerate positions). -/
theorem normalize_never_raises (data : HData ℝ) :
    (∀ err : PyErr,
      normalizedIncidenceRun Real.sqrt data ≠ Except.error err)
    ∧ ∃ M : RMat ℝ, normalizedIncidenceRun Real.sqrt data = Except.ok M
      ∧ ∀ v e, M.entry v e
          = (1 / Real.sqrt (∑ g ∈ Finset.range data.x.cols,
                data.x.entry v g * hweights data g))
            * data.x.entry v e
            * Real.sqrt (hweights data e
                / ∑ u ∈ Finset.range data.x.rows, data.x.entry u e) := by
  refine ⟨fun _ h => Except.noConfusion h,
    normalized_incidence Real.sqrt data, rfl, fun v e => ?_⟩
  simp only [normalized_incidence, one_mul]

/-- C5: HypergraphPinv.call invokes the spectrum solver with
num_ev = rank + 1 when the configured rank is a finite k, and with
num_ev absent when rank is None; the raw eigenpairs are then handed to
setup_spectral_data together with threshold and max_rank = rank. -/
theorem hypergraphPinv_requests_rank_plus_one (sq f32 : α → α)
    (svd : RMat α → Except PyErr (SVDOut α))
    (svds : RMat α → ℕ → α → Except PyErr (SVDOut α))
    (setup : HData α → List α → RMat α → α → Option ℕ → HData α)
    (eig_tol eig_threshold : α) (data : HData α) :
    (∀ k, HypergraphPinv.call sq f32 svd svds setup (some k)
        eig_tol eig_threshold data
      = match hypergraph_laplacian_decomposition f32 svd svds
            (normalized_incidence sq data) (some (k + 1)) eig_tol with
        | .error e => .error e
        | .ok spec => .ok (setup data spec.w spec.U eig_threshold (some k)))
    ∧ HypergraphPinv.call sq f32 svd svds setup none
        eig_tol eig_threshold data
      = match hypergraph_laplacian_decomposition f32 svd svds
            (normalized_incidence sq data) none eig_tol with
        | .error e => .error e
        | .ok spec => .ok (setup data spec.w spec.U eig_threshold none) :=
  ⟨fun _ => rfl, rfl⟩

/-- C10: UCIHypergraphDataset.save_processed applies its pre_transform
branch with an inverted None test: with pre_transform absent it calls
None as a function, raising TypeError before anything is saved, and with
a pre_transform f supplied it saves collate([data]) with f never applied
to the data. -/
theorem save_processed_pre_transform_behavior (f32 : α → α)
    (incidence : RMat α) (labels : List ℤ) :
    UCIHypergraphDataset.save_processed f32 none incidence labels
        = Except.error PyErr.typeError
    ∧ ∀ f : TorchData α → TorchData α,
        UCIHypergraphDataset.save_processed f32 (some f) incidence labels
          = Except.ok [⟨⟨incidence.rows, incidence.cols,
                fun i j => f32 (incidence.entry i j)⟩,
              labels, List.replicate incidence.cols 1⟩] :=
  ⟨rfl, fun _ => rfl⟩

/-- Trivial stand-in SVD backend over the rationals, shaped like the
economy-size np.linalg.svd on an input whose smaller dimension is zero:
it returns min(rows, cols) columns and an empty singular value list. -/
def svdTrivQ : RMat ℚ → Except PyErr (SVDOut ℚ) :=
  fun M => .ok ⟨⟨M.rows, min M.rows M.cols, fun _ _ => 0⟩, [],
    ⟨min M.rows M.cols, M.cols, fun _ _ => 0⟩, DType.float64⟩

/-- Trivial stand-in truncated SVD backend over the rationals: for a
request of k triplets it returns k columns and k singular values. -/
def svdsTrivQ : RMat ℚ → ℕ → ℚ → Except PyErr (SVDOut ℚ) :=
  fun M k _ => .ok ⟨⟨M.rows, k, fun _ _ => 0⟩, List.replicate k 0,
    ⟨k, M.cols, fun _ _ => 0⟩, DType.float64⟩

/-- Stand-in full SVD backend returning two singular values in the
descending order documented for np.linalg.svd. -/
def svdSortedQ : RMat ℚ → Except PyErr (SVDOut ℚ) :=
  fun M => .ok ⟨⟨M.rows, 2, fun _ _ => 0⟩, [1, 0],
    ⟨2, M.cols, fun _ _ => 0⟩, DType.float64⟩

/-- A matrix with two rows and zero columns (an empty hypergraph). -/
def emptyColsMat (α : Type) [LinearOrderedField α] : RMat α :=
  ⟨2, 0, fun _ _ => 0⟩

/-- A matrix with zero rows and three columns. -/
def emptyRowsMat (α : Type) [LinearOrderedField α] : RMat α :=
  ⟨0, 3, fun _ _ => 0⟩

/-- A concrete 3 x 4 all-ones rational matrix. -/
def incQ : RMat ℚ := ⟨3, 4, fun _ _ => 1⟩

/-- C3: algorithm selection of hypergraph_laplacian_decomposition. When
num_ev is absent the full economy SVD runs untruncated; when num_ev = k
with k > cols/2 the full SVD runs and both the singular values and the
left singular vectors are truncated to the first k; otherwise the
truncated solver is called with exactly k triplets and the given
tolerance. -/
theorem decomposition_algorithm_selection (f32 : α → α)
    (svd : RMat α → Except PyErr (SVDOut α))
    (svds : RMat α → ℕ → α → Except PyErr (SVDOut α))
    (inc : RMat α) (tol : α) :
    (∀ out, svd inc = Except.ok out →
      hypergraph_laplacian_decomposition f32 svd svds inc none tol
        = Except.ok (spectrumOf f32 out.U out.sigma))
    ∧ (∀ k out, inc.cols < 2 * k → svd inc = Except.ok out →
      hypergraph_laplacian_decomposition f32 svd svds inc (some k) tol
        = Except.ok (spectrumOf f32 (out.U.takeCols k) (out.sigma.take k)))
    ∧ (∀ k, 2 * k ≤ inc.cols →
      hypergraph_laplacian_decomposition f32 svd svds inc (some k) tol
        = match svds inc k tol with
          | .error e => .error e
          | .ok out => .ok (spectrumOf f32 out.U out.sigma)) := by
  refine ⟨fun out h => ?_, fun k out hk h => ?_, fun k hk => ?_⟩
  · simp only [hypergraph_laplacian_decomposition, svdFull, h]
  · simp only [hypergraph_laplacian_decomposition, if_pos hk, svdFull, h]
  · simp only [hypergraph_laplacian_decomposition, if_neg (not_lt.mpr hk)]

/-- Witness for C3: on a 3 x 4 matrix with num_ev = 2 (2 <= 4/2) the
truncated branch is taken and the stand-in svds output is transformed. -/
theorem decomposition_algorithm_selection_witness :
    hypergraph_laplacian_decomposition id svdTrivQ svdsTrivQ incQ
        (some 2) 0
      = Except.ok (spectrumOf id (⟨3, 2, fun _ _ => 0⟩ : RMat ℚ)
          (List.replicate 2 0)) := by
  have h := (decomposition_algorithm_selection id svdTrivQ svdsTrivQ
      incQ 0).2.2 2 (by decide)
  rw [h]
  rfl

/-- C6 counterexample: on a matrix with zero columns, the decomposition
routine does not raise InvalidHypergraphError; there is no shape check
at all and the input goes straight to the SVD backend. -/
theorem decompose_accepts_empty_matrix :
    (emptyColsMat ℚ).cols = 0
    ∧ hypergraph_laplacian_decomposition id svdTrivQ svdsTrivQ
        (emptyColsMat ℚ) none 0
      ≠ Except.error PyErr.invalidHypergraph :=
  ⟨rfl, fun h => Except.noConfusion h⟩

/-- C6 amended: hypergraph_laplacian_decomposition performs no input
validation of its own and never raises InvalidHypergraphError; any error
it returns was produced by an SVD backend call. -/
theorem decompose_never_raises_invalid_hypergraph (f32 : α → α)
    (svd : RMat α → Except PyErr (SVDOut α))
    (svds : RMat α → ℕ → α → Except PyErr (SVDOut α))
    (inc : RMat α) (num_ev : Option ℕ) (tol : α)
    (hsvd : ∀ M, svd M ≠ Except.error PyErr.invalidHypergraph)
    (hsvds : ∀ M k t, svds M k t ≠ Except.error PyErr.invalidHypergraph) :
    hypergraph_laplacian_decomposition f32 svd svds inc num_ev tol
      ≠ Except.error PyErr.invalidHypergraph := by
  intro h
  cases num_ev with
  | none =>
    simp only [hypergraph_laplacian_decomposition, svdFull] at h
    cases hs : svd inc with
    | error e =>
      rw [hs] at h
      injection h with h'
      subst h'
      exact hsvd inc hs
    | ok out =>
      rw [hs] at h
      exact Except.noConfusion h
  | some k =>
    simp only [hypergraph_laplacian_decomposition] at h
    by_cases hk : inc.cols < 2 * k
    · rw [if_pos hk] at h
      simp only [svdFull] at h
      cases hs : svd inc with
      | error e =>
        rw [hs] at h
        injection h with h'
        subst h'
        exact hsvd inc hs
      | ok out =>
        rw [hs] at h
        exact Except.noConfusion h
    · rw [if_neg hk] at h
      cases hs : svds inc k tol with
      | error e =>
        rw [hs] at h
        injection h with h'
        subst h'
        exact hsvds inc k tol hs
      | ok out =>
        rw [hs] at h
        exact Except.noConfusion h

/-- Witness for C6 amended: with benign backends and a zero-row input,
the decomposition returns without InvalidHypergraphError. -/
theorem decompose_never_raises_invalid_hypergraph_witness :
    hypergraph_laplacian_decomposition id svdTrivQ svdsTrivQ
        (emptyRowsMat ℚ) (some 5) 0
      ≠ Except.error PyErr.invalidHypergraph :=
  decompose_never_raises_invalid_hypergraph id svdTrivQ svdsTrivQ
    (emptyRowsMat ℚ) (some 5) 0
    (fun _ h => Except.noConfusion h)
    (fun _ _ _ h => Except.noConfusion h)

/-- Inversion principle for a successful decomposition run: the returned
arrays are tagged float32 and the eigenvalue list is the elementwise
image, under lambda = 1 - (f32 sigma)^2, of the singular values the
selected backend produced (truncated to the first k on the full path
with a finite request). Shared between several claim theorems. -/
lemma decompose_ok_characterization (f32 : α → α)
    (svd : RMat α → Except PyErr (SVDOut α))
    (svds : RMat α → ℕ → α → Except PyErr (SVDOut α))
    (inc : RMat α) (num_ev : Option ℕ) (tol : α) (spec : Spectrum α)
    (h : hypergraph_laplacian_decomposition f32 svd svds inc num_ev tol
        = Except.ok spec) :
    spec.wDtype = DType.float32 ∧ spec.uDtype = DType.float32
    ∧ ∃ sigma : List α,
        ((∃ out, svd inc = Except.ok out
            ∧ sigma = (match num_ev with
                | none => out.sigma
                | some k => out.sigma.take k))
          ∨ (∃ k out, num_ev = some k ∧ svds inc k tol = Except.ok out
              ∧ sigma = out.sigma))
        ∧ spec.w = sigma.map fun s => 1 - f32 s ^ 2 := by
  cases num_ev with
  | none =>
    simp only [hypergraph_laplacian_decomposition, svdFull] at h
    cases hs : svd inc with
    | error e =>
      rw [hs] at h
      exact Except.noConfusion h
    | ok out =>
      rw [hs] at h
      injection h with h'
      subst h'
      exact ⟨rfl, rfl, out.sigma, Or.inl ⟨out, rfl, rfl⟩, rfl⟩
  | some k =>
    simp only [hypergraph_laplacian_decomposition] at h
    by_cases hk : inc.cols < 2 * k
    · rw [if_pos hk] at h
      simp only [svdFull] at h
      cases hs : svd inc with
      | error e =>
        rw [hs] at h
        exact Except.noConfusion h
      | ok out =>
        rw [hs] at h
        injection h with h'
        subst h'
        exact ⟨rfl, rfl, out.sigma.take k, Or.inl ⟨out, rfl, rfl⟩, rfl⟩
    · rw [if_neg hk] at h
      cases hs : svds inc k tol with
      | error e =>
        rw [hs] at h
        exact Except.noConfusion h
      | ok out =>
        rw [hs] at h
        injection h with h'
        subst h'
        exact ⟨rfl, rfl, out.sigma, Or.inr ⟨k, out, rfl, hs, rfl⟩, rfl⟩

/-- C4: whenever the decomposition returns, each returned eigenvalue is
1 - sigma^2 for the corresponding singular value sigma produced by the
selected path (sigma first cast to single precision by f32), and both
the eigenvalue list and the eigenvector matrix are stored as float32
regardless of the precision the backend produced. -/
theorem eigenvalue_transform_and_precision (f32 : α → α)
    (svd : RMat α → Except PyErr (SVDOut α))
    (svds : RMat α → ℕ → α → Except PyErr (SVDOut α))
    (inc : RMat α) (num_ev : Option ℕ) (tol : α) (spec : Spectrum α)
    (h : hypergraph_laplacian_decomposition f32 svd svds inc num_ev tol
        = Except.ok spec) :
    spec.wDtype = DType.float32 ∧ spec.uDtype = DType.float32
    ∧ ∃ sigma : List α,
        ((∃ out, svd inc = Except.ok out
            ∧ sigma = (match num_ev with
                | none => out.sigma
                | some k => out.sigma.take k))
          ∨ (∃ k out, num_ev = some k ∧ svds inc k tol = Except.ok out
              ∧ sigma = out.sigma))
        ∧ spec.w = sigma.map fun s => 1 - f32 s ^ 2 :=
  decompose_ok_characterization f32 svd svds inc num_ev tol spec h

/-- Witness for C4: a concrete truncated-path run over the rationals. -/
theorem eigenvalue_transform_and_precision_witness :
    ∃ spec : Spectrum ℚ,
      hypergraph_laplacian_decomposition id svdTrivQ svdsTrivQ incQ
          (some 2) 0 = Except.ok spec
      ∧ spec.wDtype = DType.float32 ∧ spec.uDtype = DType.float32
      ∧ spec.w = (List.replicate 2 (0 : ℚ)).map fun s => 1 - id s ^ 2 := by
  refine ⟨_, rfl, ?_⟩
  have h := eigenvalue_transform_and_precision id svdTrivQ svdsTrivQ incQ
    (some 2) 0 _ rfl
  exact ⟨h.1, h.2.1, rfl⟩

/-- C9: whenever the decomposition returns, the eigenvalue count equals
the eigenvector column count, given the documented backend shapes
(economy SVD: as many singular values as U columns; svds: exactly k of
each). The full path with finite k truncates both consistently, the
numpy slice clamping when k exceeds the available count. -/
theorem eigenpair_count_matches_columns (f32 : α → α)
    (svd : RMat α → Except PyErr (SVDOut α))
    (svds : RMat α → ℕ → α → Except PyErr (SVDOut α))
    (inc : RMat α) (num_ev : Option ℕ) (tol : α) (spec : Spectrum α)
    (hsvd : ∀ out, svd inc = Except.ok out →
        out.sigma.length = out.U.cols)
    (hsvds : ∀ k out, svds inc k tol = Except.ok out →
        out.sigma.length = k ∧ out.U.cols = k)
    (h : hypergraph_laplacian_decomposition f32 svd svds inc num_ev tol
        = Except.ok spec) :
    spec.w.length = spec.U.cols := by
  cases num_ev with
  | none =>
    simp only [hypergraph_laplacian_decomposition, svdFull] at h
    cases hs : svd inc with
    | error e =>
      rw [hs] at h
      exact Except.noConfusion h
    | ok out =>
      rw [hs] at h
      injection h with h'
      subst h'
      simpa [spectrumOf] using hsvd out hs
  | some k =>
    simp only [hypergraph_laplacian_decomposition] at h
    by_cases hk : inc.cols < 2 * k
    · rw [if_pos hk] at h
      simp only [svdFull] at h
      cases hs : svd inc with
      | error e =>
        rw [hs] at h
        exact Except.noConfusion h
      | ok out =>
        rw [hs] at h
        injection h with h'
        subst h'
        simp [spectrumOf, RMat.takeCols, hsvd out hs]
    · rw [if_neg hk] at h
      cases hs : svds inc k tol with
      | error e =>
        rw [hs] at h
        exact Except.noConfusion h
      | ok out =>
        rw [hs] at h
        injection h with h'
        subst h'
        simp [spectrumOf, (hsvds k out hs).1, (hsvds k out hs).2]

/-- Witness for C9: a concrete full-path run on an empty (two rows, zero
columns) matrix. -/
theorem eigenpair_count_matches_columns_witness :
    ∃ spec : Spectrum ℚ,
      hypergraph_laplacian_decomposition id svdTrivQ svdsTrivQ
          (emptyColsMat ℚ) none 0 = Except.ok spec
      ∧ spec.w.length = spec.U.cols := by
  refine ⟨_, rfl, ?_⟩
  exact eigenpair_count_matches_columns id svdTrivQ svdsTrivQ
    (emptyColsMat ℚ) none 0 _
    (fun out h => by injection h with h'; subst h'; rfl)
    (fun k out h => by injection h with h'; subst h'; exact ⟨List.length_replicate _ _, rfl⟩)
    rfl

/-- An antitone map of a descending nonnegative list is ascending: the
image of a list sorted by greater-or-equal under s maps to 1 - (f32 s)^2
is sorted by less-or-equal, for monotone nonnegativity-preserving f32. -/
lemma sorted_map_one_sub_sq (f32 : α → α) (hmono : Monotone f32)
    (hnn : ∀ s : α, 0 ≤ s → 0 ≤ f32 s) :
    ∀ l : List α, List.Sorted (· ≥ ·) l → (∀ s ∈ l, 0 ≤ s) →
      List.Sorted (· ≤ ·) (l.map fun s => 1 - f32 s ^ 2) := by
  intro l
  induction l with
  | nil =>
    intro _ _
    simp
  | cons a l ih =>
    intro hs hpos
    rw [List.map_cons, List.sorted_cons]
    rw [List.sorted_cons] at hs
    refine ⟨?_, ih hs.2 fun s hsl => hpos s (List.mem_cons_of_mem a hsl)⟩
    intro b hb
    obtain ⟨c, hc, rfl⟩ := List.mem_map.mp hb
    have hca : c ≤ a := hs.1 c hc
    have hc0 : 0 ≤ c := hpos c (List.mem_cons_of_mem a hc)
    have h2 : f32 c ^ 2 ≤ f32 a ^ 2 :=
      pow_le_pow_left₀ (hnn c hc0) (hmono hca) 2
    linarith

/-- C8: the decomposition applies no sorting of its own. On the
truncated path the eigenvalues are the positional image of whatever
singular value sequence the iterative solver produced. On the full path,
if the backend returns its singular values in descending order (as
np.linalg.svd documents) and nonnegative, the resulting eigenvalues
1 - sigma^2 come out in ascending order, for any monotone
nonnegativity-preserving rounding f32. -/
theorem decompose_preserves_backend_order (f32 : α → α)
    (svd : RMat α → Except PyErr (SVDOut α))
    (svds : RMat α → ℕ → α → Except PyErr (SVDOut α))
    (inc : RMat α) (tol : α)
    (hmono : Monotone f32) (hnn : ∀ s : α, 0 ≤ s → 0 ≤ f32 s) :
    (∀ k out, 2 * k ≤ inc.cols → svds inc k tol = Except.ok out →
        hypergraph_laplacian_decomposition f32 svd svds inc (some k) tol
          = Except.ok (spectrumOf f32 out.U out.sigma)
        ∧ (spectrumOf f32 out.U out.sigma).w
            = out.sigma.map fun s => 1 - f32 s ^ 2)
    ∧ (∀ num_ev spec out, svd inc = Except.ok out →
        (num_ev = none ∨ ∃ k, num_ev = some k ∧ inc.cols < 2 * k) →
        List.Sorted (· ≥ ·) out.sigma → (∀ s ∈ out.sigma, 0 ≤ s) →
        hypergraph_laplacian_decomposition f32 svd svds inc num_ev tol
          = Except.ok spec →
        List.Sorted (· ≤ ·) spec.w) := by
  constructor
  · intro k out hk hout
    refine ⟨?_, rfl⟩
    simp only [hypergraph_laplacian_decomposition,
      if_neg (not_lt.mpr hk), hout]
  · rintro num_ev spec out hout (rfl | ⟨k, rfl, hk⟩) hsorted hpos hrun
    · simp only [hypergraph_laplacian_decomposition, svdFull, hout] at hrun
      injection hrun with h'
      subst h'
      exact sorted_map_one_sub_sq f32 hmono hnn out.sigma hsorted hpos
    · simp only [hypergraph_laplacian_decomposition, if_pos hk, svdFull,
        hout] at hrun
      injection hrun with h'
      subst h'
      exact sorted_map_one_sub_sq f32 hmono hnn (out.sigma.take k)
        (List.Pairwise.sublist (List.take_sublist k out.sigma) hsorted)
        (fun s hsl => hpos s (List.take_subset k out.sigma hsl))

/-- Witness for C8: a full-path run whose backend returns the descending
pair [1, 0]; the resulting eigenvalues are ascending. -/
theorem decompose_preserves_backend_order_witness :
    List.Sorted (· ≤ ·)
      ((spectrumOf id (⟨3, 2, fun _ _ => 0⟩ : RMat ℚ) [1, 0]).w) :=
  (decompose_preserves_backend_order id svdSortedQ svdsTrivQ incQ 0
      monotone_id (fun _ hs => hs)).2 none
    (spectrumOf id (⟨3, 2, fun _ _ => 0⟩ : RMat ℚ) [1, 0])
    ⟨⟨3, 2, fun _ _ => 0⟩, [1, 0], ⟨2, 4, fun _ _ => 0⟩, DType.float64⟩
    rfl (Or.inl rfl) (by decide) (by decide) rfl

/-- Validity of a hypergraph input in the sense of the specification:
nonnegative incidence entries, strictly positive hyperedge weights, and
strictly positive weighted node degrees and hyperedge degrees. -/
def ValidHypergraph (data : HData ℝ) : Prop :=
  (∀ v e, 0 ≤ data.x.entry v e)
  ∧ (∀ e, 0 < hweights data e)
  ∧ (∀ v ∈ Finset.range data.x.rows,
      0 < ∑ g ∈ Finset.range data.x.cols,
          data.x.entry v g * hweights data g)
  ∧ (∀ e ∈ Finset.range data.x.cols,
      0 < ∑ u ∈ Finset.range data.x.rows, data.x.entry u e)

/-- s is a singular value of M: s is nonnegative and s^2 is an
eigenvalue of the Gram matrix M transpose times M, witnessed by an
eigenvector supported on the column index range. -/
def IsSingularValue (M : RMat ℝ) (s : ℝ) : Prop :=
  0 ≤ s ∧ ∃ x : ℕ → ℝ,
    (∃ e ∈ Finset.range M.cols, x e ≠ 0) ∧
    ∀ e ∈ Finset.range M.cols,
      ∑ v ∈ Finset.range M.rows,
          M.entry v e * ∑ g ∈ Finset.range M.cols, M.entry v g * x g
        = s ^ 2 * x e

/-- Core inequality behind the spectral range claim: the symmetrically
normalized incidence matrix is a contraction. Stated over explicit
degree functions d (weighted node degrees) and b (hyperedge degrees):
for every vector x, the squared euclidean norm of
D^(-1/2) H W^(1/2) B^(-1/2) x is at most that of x. The proof is
row-wise Cauchy-Schwarz against the weight split
H * sqrt(w/b) = sqrt(H*w) * sqrt(H/b). -/
lemma contraction_aux (m n : ℕ) (A : ℕ → ℕ → ℝ) (w d b : ℕ → ℝ)
    (hA : ∀ v e, 0 ≤ A v e) (hw : ∀ e, 0 < w e)
    (hd : ∀ v ∈ Finset.range m, d v = ∑ g ∈ Finset.range n, A v g * w g)
    (hb : ∀ e ∈ Finset.range n, b e = ∑ u ∈ Finset.range m, A u e)
    (hd0 : ∀ v ∈ Finset.range m, 0 < d v)
    (hb0 : ∀ e ∈ Finset.range n, 0 < b e)
    (x : ℕ → ℝ) :
    ∑ v ∈ Finset.range m,
        (∑ e ∈ Finset.range n,
          1 / Real.sqrt (d v) * A v e * Real.sqrt (w e / b e) * x e) ^ 2
      ≤ ∑ e ∈ Finset.range n, x e ^ 2 := by
  have key : ∀ v ∈ Finset.range m,
      (∑ e ∈ Finset.range n,
          1 / Real.sqrt (d v) * A v e * Real.sqrt (w e / b e) * x e) ^ 2
        ≤ ∑ e ∈ Finset.range n, A v e / b e * x e ^ 2 := by
    intro v hv
    have hdv : 0 < d v := hd0 v hv
    have hpull : ∑ e ∈ Finset.range n,
        1 / Real.sqrt (d v) * A v e * Real.sqrt (w e / b e) * x e
        = 1 / Real.sqrt (d v)
          * ∑ e ∈ Finset.range n, A v e * Real.sqrt (w e / b e) * x e := by
      rw [Finset.mul_sum]
      exact Finset.sum_congr rfl fun e _ => by ring
    have hterm : ∀ e ∈ Finset.range n,
        A v e * Real.sqrt (w e / b e) * x e
          = Real.sqrt (A v e * w e) * (Real.sqrt (A v e / b e) * x e) := by
      intro e he
      have h1 : Real.sqrt (A v e * w e) * Real.sqrt (A v e / b e)
          = A v e * Real.sqrt (w e / b e) := by
        rw [← Real.sqrt_mul (mul_nonneg (hA v e) (hw e).le)]
        rw [show A v e * w e * (A v e / b e)
            = A v e * A v e * (w e / b e) by ring]
        rw [Real.sqrt_mul (mul_nonneg (hA v e) (hA v e)),
          Real.sqrt_mul_self (hA v e)]
      rw [← mul_assoc, h1]
    have hsq : (1 / Real.sqrt (d v)) ^ 2 = 1 / d v := by
      rw [div_pow, one_pow, Real.sq_sqrt hdv.le]
    have hfa : ∑ e ∈ Finset.range n, Real.sqrt (A v e * w e) ^ 2 = d v := by
      rw [hd v hv]
      exact Finset.sum_congr rfl fun e _ =>
        Real.sq_sqrt (mul_nonneg (hA v e) (hw e).le)
    have hga : ∀ e ∈ Finset.range n,
        (Real.sqrt (A v e / b e) * x e) ^ 2 = A v e / b e * x e ^ 2 := by
      intro e he
      rw [mul_pow, Real.sq_sqrt (div_nonneg (hA v e) (hb0 e he).le)]
    have hCS := Finset.sum_mul_sq_le_sq_mul_sq (Finset.range n)
      (fun e => Real.sqrt (A v e * w e))
      (fun e => Real.sqrt (A v e / b e) * x e)
    rw [hpull, mul_pow, hsq, Finset.sum_congr rfl hterm]
    calc 1 / d v * (∑ e ∈ Finset.range n,
            Real.sqrt (A v e * w e) * (Real.sqrt (A v e / b e) * x e)) ^ 2
        ≤ 1 / d v * ((∑ e ∈ Finset.range n, Real.sqrt (A v e * w e) ^ 2)
            * ∑ e ∈ Finset.range n, (Real.sqrt (A v e / b e) * x e) ^ 2) :=
          mul_le_mul_of_nonneg_left hCS (by positivity)
      _ = 1 / d v * (d v * ∑ e ∈ Finset.range n, A v e / b e * x e ^ 2) := by
          rw [hfa, Finset.sum_congr rfl hga]
      _ = ∑ e ∈ Finset.range n, A v e / b e * x e ^ 2 := by
          rw [one_div, inv_mul_cancel_left₀ hdv.ne']
  have colsum : ∀ e ∈ Finset.range n,
      ∑ v ∈ Finset.range m, A v e / b e * x e ^ 2 = x e ^ 2 := by
    intro e he
    have hbe : 0 < b e := hb0 e he
    have hfact : ∑ v ∈ Finset.range m, A v e / b e * x e ^ 2
        = (∑ v ∈ Finset.range m, A v e) * (x e ^ 2 / b e) := by
      rw [Finset.sum_mul]
      exact Finset.sum_congr rfl fun v _ => by ring
    rw [hfact, ← hb e he, mul_comm, div_mul_cancel₀ _ hbe.ne']
  calc ∑ v ∈ Finset.range m,
        (∑ e ∈ Finset.range n,
          1 / Real.sqrt (d v) * A v e * Real.sqrt (w e / b e) * x e) ^ 2
      ≤ ∑ v ∈ Finset.range m,
          ∑ e ∈ Finset.range n, A v e / b e * x e ^ 2 :=
        Finset.sum_le_sum key
    _ = ∑ e ∈ Finset.range n,
          ∑ v ∈ Finset.range m, A v e / b e * x e ^ 2 := Finset.sum_comm
    _ = ∑ e ∈ Finset.range n, x e ^ 2 := Finset.sum_congr rfl colsum

/-- The normalized incidence matrix of a valid hypergraph is a
contraction on vectors indexed by hyperedges. -/
lemma normalized_incidence_contraction (data : HData ℝ)
    (hvalid : ValidHypergraph data) (x : ℕ → ℝ) :
    ∑ v ∈ Finset.range data.x.rows,
        (∑ e ∈ Finset.range data.x.cols,
          (normalized_incidence Real.sqrt data).entry v e * x e) ^ 2
      ≤ ∑ e ∈ Finset.range data.x.cols, x e ^ 2 := by
  obtain ⟨hA, hw, hd, hb⟩ := hvalid
  have hrw : ∀ v e, (normalized_incidence Real.sqrt data).entry v e
      = 1 / Real.sqrt (∑ g ∈ Finset.range data.x.cols,
            data.x.entry v g * hweights data g)
        * data.x.entry v e
        * Real.sqrt (hweights data e
            / ∑ u ∈ Finset.range data.x.rows, data.x.entry u e) := by
    intro v e
    simp only [normalized_incidence, one_mul]
  have h := contraction_aux data.x.rows data.x.cols data.x.entry
    (hweights data)
    (fun v => ∑ g ∈ Finset.range data.x.cols,
        data.x.entry v g * hweights data g)
    (fun e => ∑ u ∈ Finset.range data.x.rows, data.x.entry u e)
    hA hw (fun _ _ => rfl) (fun _ _ => rfl) hd hb x
  calc ∑ v ∈ Finset.range data.x.rows,
        (∑ e ∈ Finset.range data.x.cols,
          (normalized_incidence Real.sqrt data).entry v e * x e) ^ 2
      = ∑ v ∈ Finset.range data.x.rows,
          (∑ e ∈ Finset.range data.x.cols,
            1 / Real.sqrt (∑ g ∈ Finset.range data.x.cols,
                data.x.entry v g * hweights data g)
              * data.x.entry v e
              * Real.sqrt (hweights data e
                  / ∑ u ∈ Finset.range data.x.rows, data.x.entry u e)
              * x e) ^ 2 := by
        refine Finset.sum_congr rfl fun v _ => ?_
        congr 1
        exact Finset.sum_congr rfl fun e _ => by rw [hrw v e]
    _ ≤ ∑ e ∈ Finset.range data.x.cols, x e ^ 2 := h

/-- A singular value of a matrix that acts as a contraction has square
at most one. -/
lemma singular_value_sq_le_one (M : RMat ℝ)
    (hcontr : ∀ x : ℕ → ℝ,
      ∑ v ∈ Finset.range M.rows,
          (∑ e ∈ Finset.range M.cols, M.entry v e * x e) ^ 2
        ≤ ∑ e ∈ Finset.range M.cols, x e ^ 2)
    (s : ℝ) (hs : IsSingularValue M s) : s ^ 2 ≤ 1 := by
  obtain ⟨hs0, x, ⟨e₀, he₀, hx₀⟩, heig⟩ := hs
  have hS : 0 < ∑ e ∈ Finset.range M.cols, x e ^ 2 :=
    Finset.sum_pos' (fun i _ => sq_nonneg _)
      ⟨e₀, he₀, pow_two_pos_of_ne_zero hx₀⟩
  have key : s ^ 2 * ∑ e ∈ Finset.range M.cols, x e ^ 2
      = ∑ v ∈ Finset.range M.rows,
          (∑ e ∈ Finset.range M.cols, M.entry v e * x e) ^ 2 := by
    calc s ^ 2 * ∑ e ∈ Finset.range M.cols, x e ^ 2
        = ∑ e ∈ Finset.range M.cols, s ^ 2 * x e * x e := by
          rw [Finset.mul_sum]
          exact Finset.sum_congr rfl fun e _ => by ring
      _ = ∑ e ∈ Finset.range M.cols,
            (∑ v ∈ Finset.range M.rows,
              M.entry v e
                * ∑ g ∈ Finset.range M.cols, M.entry v g * x g) * x e :=
          Finset.sum_congr rfl fun e he => by rw [heig e he]
      _ = ∑ e ∈ Finset.range M.cols, ∑ v ∈ Finset.range M.rows,
            M.entry v e
              * (∑ g ∈ Finset.range M.cols, M.entry v g * x g) * x e := by
          refine Finset.sum_congr rfl fun e _ => ?_
          rw [Finset.sum_mul]
      _ = ∑ v ∈ Finset.range M.rows, ∑ e ∈ Finset.range M.cols,
            M.entry v e
              * (∑ g ∈ Finset.range M.cols, M.entry v g * x g) * x e :=
          Finset.sum_comm
      _ = ∑ v ∈ Finset.range M.rows,
            (∑ e ∈ Finset.range M.cols, M.entry v e * x e) ^ 2 := by
          refine Finset.sum_congr rfl fun v _ => ?_
          have hfac : ∑ e ∈ Finset.range M.cols,
              M.entry v e
                * (∑ g ∈ Finset.range M.cols, M.entry v g * x g) * x e
              = (∑ g ∈ Finset.range M.cols, M.entry v g * x g)
                * ∑ e ∈ Finset.range M.cols, M.entry v e * x e := by
            rw [Finset.mul_sum]
            exact Finset.sum_congr rfl fun e _ => by ring
          rw [hfac, sq]
  have hle : s ^ 2 * (∑ e ∈ Finset.range M.cols, x e ^ 2)
      ≤ 1 * ∑ e ∈ Finset.range M.cols, x e ^ 2 := by
    rw [key, one_mul]
    exact hcontr x
  exact le_of_mul_le_mul_right hle hS

/-- C7: for a valid hypergraph, every eigenvalue returned by the
decomposition lies in [0, 1], provided the SVD backends return genuine
singular values of the normalized incidence matrix and the float32 cast
is exact on them. The heart is that the singular values of
D^(-1/2) H W^(1/2) B^(-1/2) lie in [0, 1]. -/
theorem decompose_eigenvalues_in_unit_interval (f32 : ℝ → ℝ)
    (svd : RMat ℝ → Except PyErr (SVDOut ℝ))
    (svds : RMat ℝ → ℕ → ℝ → Except PyErr (SVDOut ℝ))
    (data : HData ℝ) (num_ev : Option ℕ) (tol : ℝ) (spec : Spectrum ℝ)
    (hvalid : ValidHypergraph data)
    (hf32 : ∀ s, f32 s = s)
    (hsvd : ∀ out,
      svd (normalized_incidence Real.sqrt data) = Except.ok out →
      ∀ s ∈ out.sigma,
        IsSingularValue (normalized_incidence Real.sqrt data) s)
    (hsvds : ∀ k out,
      svds (normalized_incidence Real.sqrt data) k tol = Except.ok out →
      ∀ s ∈ out.sigma,
        IsSingularValue (normalized_incidence Real.sqrt data) s)
    (hrun : hypergraph_laplacian_decomposition f32 svd svds
        (normalized_incidence Real.sqrt data) num_ev tol
      = Except.ok spec)
    (lam : ℝ) (hlam : lam ∈ spec.w) :
    0 ≤ lam ∧ lam ≤ 1 := by
  obtain ⟨-, -, sigma, hsel, hw⟩ := decompose_ok_characterization f32 svd
    svds (normalized_incidence Real.sqrt data) num_ev tol spec hrun
  rw [hw] at hlam
  obtain ⟨s, hsl, rfl⟩ := List.mem_map.mp hlam
  have hsing : IsSingularValue (normalized_incidence Real.sqrt data) s := by
    rcases hsel with ⟨out, hout, hsig⟩ | ⟨k, out, hne, hout, hsig⟩
    · subst hsig
      cases num_ev with
      | none => exact hsvd out hout s hsl
      | some k =>
        exact hsvd out hout s (List.take_subset k out.sigma hsl)
    · subst hsig
      exact hsvds k out hout s hsl
  have hle : s ^ 2 ≤ 1 :=
    singular_value_sq_le_one (normalized_incidence Real.sqrt data)
      (fun x => normalized_incidence_contraction data hvalid x) s hsing
  rw [hf32 s]
  exact ⟨by linarith, by have := sq_nonneg s; linarith⟩

/-- The one-node, one-hyperedge hypergraph with unit incidence and no
explicit weights. -/
def oneData (α : Type) [LinearOrderedField α] : HData α :=
  ⟨⟨1, 1, fun _ _ => 1⟩, none⟩

/-- Stand-in full SVD backend returning the single singular value 1 with
constant singular vectors. -/
def svdOne (α : Type) [LinearOrderedField α] :
    RMat α → Except PyErr (SVDOut α) :=
  fun M => .ok ⟨⟨M.rows, 1, fun _ _ => 1⟩, [1],
    ⟨1, M.cols, fun _ _ => 1⟩, DType.float64⟩

/-- Stand-in truncated SVD backend returning no singular values. -/
def svdsEmpty (α : Type) [LinearOrderedField α] :
    RMat α → ℕ → α → Except PyErr (SVDOut α) :=
  fun M k _ => .ok ⟨⟨M.rows, k, fun _ _ => 0⟩, [],
    ⟨k, M.cols, fun _ _ => 0⟩, DType.float64⟩

/-- Every entry of the normalized incidence of the unit hypergraph is 1:
the degree sums are 1, and sqrt 1 = 1. -/
lemma oneData_normalized_entry (v e : ℕ) :
    (normalized_incidence Real.sqrt (oneData ℝ)).entry v e = 1 := by
  simp [normalized_incidence, oneData, hweights, Finset.sum_range_one,
    Real.sqrt_one]

/-- Witness for C7: the unit hypergraph with an exact backend produces
the eigenvalue 1 - 1^2 = 0, which lies in [0, 1]. -/
theorem decompose_eigenvalues_in_unit_interval_witness :
    0 ≤ 1 - (1 : ℝ) ^ 2 ∧ 1 - (1 : ℝ) ^ 2 ≤ 1 := by
  refine decompose_eigenvalues_in_unit_interval id (svdOne ℝ)
    (svdsEmpty ℝ) (oneData ℝ) none 0
    (spectrumOf id (⟨1, 1, fun _ _ => 1⟩ : RMat ℝ) [1])
    ⟨fun _ _ => zero_le_one, fun _ => zero_lt_one, ?_, ?_⟩
    (fun _ => rfl) ?_ ?_ rfl (1 - (1 : ℝ) ^ 2) ?_
  · intro v hv
    simp [oneData, Finset.sum_range_one, hweights]
  · intro e he
    simp [oneData, Finset.sum_range_one]
  · intro out h s hs
    injection h with h'
    subst h'
    rw [List.mem_singleton] at hs
    subst hs
    refine ⟨zero_le_one, fun _ => 1, ⟨0, Finset.mem_range.mpr ?_, one_ne_zero⟩, ?_⟩
    · exact Nat.one_pos
    · intro e he
      have hr : (normalized_incidence Real.sqrt (oneData ℝ)).rows = 1 := rfl
      have hc : (normalized_incidence Real.sqrt (oneData ℝ)).cols = 1 := rfl
      rw [hr, hc]
      simp [Finset.sum_range_one, oneData_normalized_entry]
  · intro k out h s hs
    injection h with h'
    subst h'
    exact absurd hs (List.not_mem_nil s)
  · exact List.mem_singleton.mpr (by norm_num)

/-- Witness for C2 amended: the unit hypergraph normalizes without any
error being raised. -/
theorem normalize_never_raises_witness :
    normalizedIncidenceRun Real.sqrt (oneData ℝ)
      ≠ Except.error PyErr.degenerateDegree :=
  (normalize_never_raises (oneData ℝ)).1 PyErr.degenerateDegree

end PinvGCN
